import Mathlib

/-!
Verification of the shift-code merge pipeline (`merge_shiftcodes.py`).

The program fetches several JSON documents, normalizes each to a sequence of
code entries, merges them into an ordered mapping keyed by the `code` field
(keeping, for duplicate codes, the entry whose `archived` string is strictly
greater), sorts the merged entries descending by the `(game, archived)` key,
and wraps them in a one-element output document.

JSON values are modelled by the inductive `JValue`; Python dictionaries are
association lists in insertion order (Python 3.7+ dict semantics).  Operations
that can raise a Python `TypeError` (iterating a non-iterable, ordering
incomparable values) are modelled in the `Except Unit` monad.
-/

set_option autoImplicit false

/-- JSON values as manipulated by the script.  Numbers are modelled as
integers: every field this program touches is a string, so numeric precision
never matters.  Objects are insertion-ordered association lists. -/
inductive JValue : Type where
  | null : JValue
  | bool : Bool → JValue
  | num : Int → JValue
  | str : String → JValue
  | arr : List JValue → JValue
  | obj : List (String × JValue) → JValue

mutual

/-- Structural equality of JSON values, standing in for Python `==` on the
values this pipeline compares as dictionary keys. -/
def JValue.beq : JValue → JValue → Bool
  | .null, .null => true
  | .bool a, .bool b => a == b
  | .num a, .num b => a == b
  | .str a, .str b => a == b
  | .arr a, .arr b => JValue.beqList a b
  | .obj a, .obj b => JValue.beqObj a b
  | _, _ => false

def JValue.beqList : List JValue → List JValue → Bool
  | [], [] => true
  | x :: xs, y :: ys => JValue.beq x y && JValue.beqList xs ys
  | _, _ => false

def JValue.beqObj : List (String × JValue) → List (String × JValue) → Bool
  | [], [] => true
  | (k, v) :: xs, (l, w) :: ys => k == l && JValue.beq v w && JValue.beqObj xs ys
  | _, _ => false

end

mutual

def JValue.beq_iff : ∀ a b : JValue, (JValue.beq a b = true ↔ a = b)
  | .null, b => by cases b <;> simp [JValue.beq]
  | .bool x, b => by cases b <;> simp [JValue.beq]
  | .num x, b => by cases b <;> simp [JValue.beq]
  | .str x, b => by cases b <;> simp [JValue.beq]
  | .arr xs, b => by
      cases b <;> simp [JValue.beq]
      exact JValue.beqList_iff xs _
  | .obj fs, b => by
      cases b <;> simp [JValue.beq]
      exact JValue.beqObj_iff fs _

def JValue.beqList_iff : ∀ a b : List JValue, (JValue.beqList a b = true ↔ a = b)
  | [], b => by cases b <;> simp [JValue.beqList]
  | x :: xs, [] => by simp [JValue.beqList]
  | x :: xs, y :: ys => by
      simp [JValue.beqList, JValue.beq_iff x y, JValue.beqList_iff xs ys]

def JValue.beqObj_iff : ∀ a b : List (String × JValue), (JValue.beqObj a b = true ↔ a = b)
  | [], b => by cases b <;> simp [JValue.beqObj]
  | (k, v) :: xs, [] => by simp [JValue.beqObj]
  | (k, v) :: xs, (l, w) :: ys => by
      simp [JValue.beqObj, JValue.beq_iff v w, JValue.beqObj_iff xs ys]

end

instance : DecidableEq JValue := fun a b => decidable_of_iff _ (JValue.beq_iff a b)

/-- Python truthiness (`bool(v)`) on JSON values: `None`, `False`, `0`, the
empty string, the empty list and the empty dict are falsy. -/
def pyTruthy : JValue → Bool
  | .null => false
  | .bool b => b
  | .num n => n != 0
  | .str s => s ≠ ""
  | .arr xs => !xs.isEmpty
  | .obj fs => !fs.isEmpty

/-- Python `isinstance(v, dict)`. -/
def isDict : JValue → Bool
  | .obj _ => true
  | _ => false

/-- Python `isinstance(v, list)`. -/
def isList : JValue → Bool
  | .arr _ => true
  | _ => false

/-- Dictionary lookup (first binding of the key, as in a real dict where keys
are unique). -/
def objLookup (v : JValue) (k : String) : Option JValue :=
  match v with
  | .obj fs => fs.lookup k
  | _ => none

/-- Python `d.get(k, default)`: the stored value when the key is present
(even when that value is `None`), the default otherwise. -/
def pyGetD (v : JValue) (k : String) (d : JValue) : JValue :=
  (objLookup v k).getD d

/-- Python `k in d` on a dictionary. -/
def objContains (v : JValue) (k : String) : Bool :=
  (objLookup v k).isSome

/-- Python iteration `for x in v`: lists yield their elements, strings their
one-character substrings, dicts their keys; other values are not iterable
(`TypeError`, modelled as `none`). -/
def pySeq : JValue → Option (List JValue)
  | .arr xs => some xs
  | .str s => some (s.toList.map fun c => .str (String.singleton c))
  | .obj fs => some (fs.map fun p => .str p.1)
  | _ => none

/-- Code-point comparison of characters; Python orders strings by code
point. -/
def charLt (a b : Char) : Bool := decide (a.toNat < b.toNat)

/-- Lexicographic comparison of character lists: Python's string `<`. -/
def lexLt : List Char → List Char → Bool
  | [], [] => false
  | [], _ :: _ => true
  | _ :: _, [] => false
  | a :: as, b :: bs => charLt a b || (a == b && lexLt as bs)

/-- Python string comparison `a < b` (lexicographic by code point). -/
def strLt (a b : String) : Bool := lexLt a.data b.data

/-- Python string comparison `a <= b`. -/
def strLe (a b : String) : Bool := strLt a b || a == b

/-- Numeric view used by Python's ordering: `bool` is a subtype of `int`, so
`True` orders as `1` and `False` as `0`. -/
def numVal : JValue → Option Int
  | .num n => some n
  | .bool b => some (if b then 1 else 0)
  | _ => none

mutual

/-- Python `a > b` on the JSON values this pipeline compares: strings compare
lexicographically by code point, numbers and booleans by value, and lists
elementwise.  Any other combination (in particular `None` against a string)
raises `TypeError`, modelled as `Except.error`.  Inside list comparison,
Python's `==` on elements is modelled by structural equality. -/
def pyGt : JValue → JValue → Except Unit Bool
  | .str a, .str b => .ok (strLt b a)
  | .arr a, .arr b => pyGtList a b
  | a, b =>
    match numVal a, numVal b with
    | some x, some y => .ok (decide (y < x))
    | _, _ => .error ()

def pyGtList : List JValue → List JValue → Except Unit Bool
  | _ :: _, [] => .ok true
  | [], _ => .ok false
  | x :: xs, y :: ys =>
    if x = y then pyGtList xs ys else pyGt x y

end

/-- The ordered mapping `merged_codes` (an `OrderedDict`): key/entry pairs in
insertion order. -/
abbrev CodeMap := List (JValue × JValue)

/-- Lookup in the ordered mapping (`code in merged_codes` / `merged_codes[code]`). -/
def mapFind : CodeMap → JValue → Option JValue
  | [], _ => none
  | (k, v) :: m, c => if k = c then some v else mapFind m c

/-- Assignment `merged_codes[code] = entry` for a key already present: the
value is replaced in place, the key keeps its position. -/
def mapSet : CodeMap → JValue → JValue → CodeMap
  | [], _, _ => []
  | (k, v) :: m, c, e => if k = c then (k, e) :: m else (k, v) :: mapSet m c e

/-- The `archived` field as read by the merge and the sort key:
`entry.get("archived", "")`. -/
def archivedOf (e : JValue) : JValue := pyGetD e "archived" (.str "")

/-- The `code` field as read by the merge: `entry.get("code")` (default `None`). -/
def codeOf (e : JValue) : JValue := pyGetD e "code" .null

/-- Processing of one element of `codes` (lines 45–60 of the script):
non-dict elements and elements without a truthy `code` are skipped; a fresh
code is inserted at the end; a duplicate code replaces the stored entry
exactly when its `archived` value compares strictly greater. -/
def mergeStep (m : CodeMap) (ce : JValue) : Except Unit CodeMap :=
  if !(isDict ce) then .ok m
  else if !(pyTruthy (codeOf ce)) then .ok m
  else
    match mapFind m (codeOf ce) with
    | some existing =>
        (pyGt (archivedOf ce) (archivedOf existing)).bind
          (fun b => .ok (if b then mapSet m (codeOf ce) ce else m))
    | none => .ok (m ++ [(codeOf ce, ce)])

/-- Normalization of one fetched document (lines 35–43): falsy, non-list or
empty documents contribute nothing; otherwise, when the first element is a
dict containing the key `codes`, that key's value is the entry sequence
(iterating it raises `TypeError` when it is not iterable, e.g. `None`);
otherwise the document itself is the entry sequence. -/
def sourceCodes (data : JValue) : Except Unit (List JValue) :=
  match data with
  | .arr (d0 :: ds) =>
      match pySeq (if isDict d0 && objContains d0 "codes"
                   then pyGetD d0 "codes" (.arr [])
                   else .arr (d0 :: ds)) with
      | some entries => .ok entries
      | none => .error ()
  | _ => .ok []

/-- Folding one source document into the ordered mapping. -/
def mergeSource (m : CodeMap) (data : JValue) : Except Unit CodeMap := do
  let entries ← sourceCodes data
  entries.foldlM mergeStep m

/-- The ordered mapping built by `merge_codes` over all sources. -/
def mergeAll (all_data : List JValue) : Except Unit CodeMap :=
  all_data.foldlM mergeSource []

/-- `merge_codes(all_data)`: the mapping's values in first-insertion order. -/
def merge_codes (all_data : List JValue) : Except Unit (List JValue) :=
  (mergeAll all_data).map (fun m => m.map Prod.snd)

/-- String content of a JSON string, empty for other values.  On the string
fields the sort and the duplicate comparison actually read, this is the
identity. -/
def strVal : JValue → String
  | .str s => s
  | _ => ""

def isStr : JValue → Bool
  | .str _ => true
  | _ => false

/-- The `game` field as read by the sort key: `entry.get("game", "")`. -/
def gameOf (e : JValue) : JValue := pyGetD e "game" (.str "")

/-- The sort key `(x.get("game", ""), x.get("archived", ""))`, read as
strings. -/
def sortKey (e : JValue) : String × String := (strVal (gameOf e), strVal (archivedOf e))

/-- Lexicographic order on the key tuples (Python tuple `<=`). -/
def keyLe (a b : String × String) : Bool :=
  strLt a.1 b.1 || (a.1 == b.1 && strLe a.2 b.2)

/-- The comparison used by `merged_codes.sort(key=..., reverse=True)`:
descending on the key tuple. -/
def sortDescLe (a b : JValue) : Bool := keyLe (sortKey b) (sortKey a)

/-- The sort step: Python `list.sort` is a stable sort, and `reverse=True`
reverses the comparisons while keeping stability; modelled by the stable
`List.mergeSort` under the descending comparison. -/
def pySortDesc (l : List JValue) : List JValue := l.mergeSort sortDescLe

/-- The output document built by `main` (lines 92–106): the generation
timestamp, `meta.newcodecount`, and the `codes` array. -/
structure OutputDoc where
  generated : String
  newcodecount : Nat
  codes : List JValue
  deriving DecidableEq

/-- The `meta` object of the output document. -/
def metaJson (doc : OutputDoc) : JValue :=
  .obj [("version", .str "0.1"),
        ("description", .str "GitHub Alternate Source for Shift Codes"),
        ("attribution", .str "Data provided by https://mentalmars.com"),
        ("permalink",
         .str "https://raw.githubusercontent.com/Majawat/autoshift-codes/main/shiftcodes.json"),
        ("generated", .obj [("human", .str doc.generated)]),
        ("newcodecount", .num doc.newcodecount)]

/-- The JSON value written to `shiftcodes.json`: a one-element array holding
`meta` and `codes`. -/
def outputJson (doc : OutputDoc) : JValue :=
  .arr [.obj [("meta", metaJson doc), ("codes", .arr doc.codes)]]

/-- An element of a `codes` sequence that the merge loop does not skip: a
dict whose `code` field is truthy. -/
def keeps (e : JValue) : Bool := isDict e && pyTruthy (codeOf e)

/-- The flattened sequence of entries the merge loop processes, in source-list
order then intra-source order (`error` when some source raises). -/
def processedEntries (all_data : List JValue) : Except Unit (List JValue) :=
  (all_data.mapM sourceCodes).map List.flatten

/-- The candidate entries for a given code value: the processed, non-skipped
entries carrying that code, in processing order. -/
def candidates (flat : List JValue) (c : JValue) : List JValue :=
  flat.filter (fun e => keeps e && decide (codeOf e = c))

/-- The `archived` value as the string the comparisons read (identity on
string values). -/
def archStr (e : JValue) : String := strVal (archivedOf e)

/-- The entry `e` occupies the position of the first maximum of `l` under the
`archived` string order: everything before it is strictly smaller and
everything after it is no greater.  This is exactly the element a
replace-on-strictly-greater scan keeps. -/
def IsFirstMax (l : List JValue) (e : JValue) : Prop :=
  ∃ pre post, l = pre ++ e :: post ∧
    (∀ x ∈ pre, strLt (archStr x) (archStr e) = true) ∧
    (∀ x ∈ post, strLe (archStr x) (archStr e) = true)

/-- Line 69–73 of `main`: a fetch result is appended to `all_data` only when
it is truthy (`if data:`), so both failed fetches (`None`) and falsy
documents are dropped. -/
def collectStep (acc : List JValue) (r : Option JValue) : List JValue :=
  match r with
  | some d => if pyTruthy d then acc ++ [d] else acc
  | none => acc

def collectData (results : List (Option JValue)) : List JValue :=
  results.foldl collectStep []

/-- Outcome of a run of `main`, as a function of the per-URL fetch results
(`none` = fetch failed) and of the generation timestamp. -/
inductive RunResult where
  | fetchError : RunResult
  | typeError : RunResult
  | wrote : OutputDoc → RunResult
  deriving DecidableEq

/-- The `main` pipeline after fetching (lines 69–115): collect truthy
results, abort with the "No data fetched" error when none remain, merge
(a `TypeError` aborts the run), sort, and build the output document;
`newcodecount` is the length of the merged list. -/
def main_run (results : List (Option JValue)) (now : String) : RunResult :=
  if (collectData results).isEmpty then .fetchError
  else
    match merge_codes (collectData results) with
    | .error _ => .typeError
    | .ok merged => .wrote ⟨now, merged.length, pySortDesc merged⟩

/-- The property of an entry that survives the merge loop's two skip checks. -/
def EntryOk (e : JValue) : Prop := isDict e = true ∧ pyTruthy (codeOf e) = true

/-- Structural invariant of the ordered mapping: every stored entry passed
the skip checks and is stored under its own code, and keys are unique. -/
def WfMap (m : CodeMap) : Prop :=
  (∀ p ∈ m, EntryOk p.2 ∧ codeOf p.2 = p.1) ∧ (m.map Prod.fst).Nodup

/-- Invariant tying the ordered mapping to the prefix of entries processed so
far: keys are unique, every stored entry sits under its own code and is the
first maximum (under the `archived` string order) of that code's candidates
so far, and codes without candidates are absent. -/
def MergeInv (flat : List JValue) (m : CodeMap) : Prop :=
  (m.map Prod.fst).Nodup
  ∧ (∀ p ∈ m, codeOf p.2 = p.1 ∧ IsFirstMax (candidates flat p.1) p.2)
  ∧ (∀ c, mapFind m c = none → candidates flat c = [])

/-! ### Lemmas about the ordered mapping -/

theorem mapFind_eq_none {m : CodeMap} {c : JValue} :
    mapFind m c = none ↔ ∀ p ∈ m, p.1 ≠ c := by
  induction m with
  | nil => simp [mapFind]
  | cons p m ih =>
      obtain ⟨k, v⟩ := p
      by_cases h : k = c
      · subst h
        simp [mapFind]
      · simp [mapFind, h, ih]

theorem mapFind_mem {m : CodeMap} {c : JValue} {v : JValue}
    (h : mapFind m c = some v) : (c, v) ∈ m := by
  induction m with
  | nil => simp [mapFind] at h
  | cons p m ih =>
      obtain ⟨k, w⟩ := p
      by_cases hk : k = c
      · subst hk
        simp [mapFind] at h
        simp [h]
      · simp [mapFind, hk] at h
        exact List.mem_cons_of_mem _ (ih h)

theorem mapSet_map_fst (m : CodeMap) (c e : JValue) :
    (mapSet m c e).map Prod.fst = m.map Prod.fst := by
  induction m with
  | nil => rfl
  | cons p m ih =>
      obtain ⟨k, v⟩ := p
      by_cases h : k = c <;> simp [mapSet, h, ih]

theorem mem_mapSet {m : CodeMap} {c e : JValue} {p : JValue × JValue}
    (h : p ∈ mapSet m c e) : p = (c, e) ∨ p ∈ m := by
  induction m with
  | nil => simp [mapSet] at h
  | cons q m ih =>
      obtain ⟨k, v⟩ := q
      by_cases hk : k = c
      · subst hk
        simp [mapSet] at h
        rcases h with h | h
        · exact Or.inl (by simp [h])
        · exact Or.inr (List.mem_cons_of_mem _ h)
      · simp [mapSet, hk] at h
        rcases h with h | h
        · exact Or.inr (by simp [h])
        · rcases ih h with h' | h'
          · exact Or.inl h'
          · exact Or.inr (List.mem_cons_of_mem _ h')

theorem mapFind_eq_none_keys {m : CodeMap} {c : JValue} :
    mapFind m c = none ↔ c ∉ m.map Prod.fst := by
  rw [mapFind_eq_none]
  simp [List.mem_map]
  constructor
  · intro h p hp
    exact h c p hp rfl
  · intro h a b hab hac
    exact h b (hac ▸ hab)

theorem mapFind_mapSet_none {m : CodeMap} {c₀ e c : JValue} :
    mapFind (mapSet m c₀ e) c = none ↔ mapFind m c = none := by
  rw [mapFind_eq_none_keys, mapFind_eq_none_keys, mapSet_map_fst]

/-! ### Invariance of properties along the merge fold -/

theorem foldlM_ok_inv {α σ : Type} {f : σ → α → Except Unit σ} (P : σ → Prop)
    (hf : ∀ s a s', P s → f s a = .ok s' → P s') :
    ∀ (l : List α) (s s' : σ), P s → l.foldlM f s = .ok s' → P s'
  | [], s, s', hs, h => by
      simp only [List.foldlM_nil] at h
      cases h
      exact hs
  | a :: l, s, s', hs, h => by
      simp only [List.foldlM_cons] at h
      cases hfa : f s a with
      | error e =>
          rw [hfa] at h
          simp only [bind, Except.bind] at h
          exact Except.noConfusion h
      | ok s1 =>
          rw [hfa] at h
          simp only [bind, Except.bind] at h
          exact foldlM_ok_inv P hf l s1 s' (hf s a s1 hs hfa) h

theorem mergeStep_wf {m : CodeMap} {ce : JValue} {m' : CodeMap}
    (hm : WfMap m) (h : mergeStep m ce = .ok m') : WfMap m' := by
  unfold mergeStep at h
  by_cases hd : isDict ce = true
  · rw [if_neg (by simp [hd])] at h
    by_cases ht : pyTruthy (codeOf ce) = true
    · rw [if_neg (by simp [ht])] at h
      cases hf : mapFind m (codeOf ce) with
      | none =>
          rw [hf] at h
          cases h
          refine ⟨?_, ?_⟩
          · intro p hp
            rcases List.mem_append.mp hp with hp | hp
            · exact hm.1 p hp
            · simp at hp
              subst hp
              exact ⟨⟨hd, ht⟩, rfl⟩
          · rw [mapFind_eq_none_keys] at hf
            rw [List.map_append, List.nodup_append]
            refine ⟨hm.2, List.nodup_singleton _, ?_⟩
            intro a ha hb
            simp at hb
            subst hb
            exact hf ha
      | some ex =>
          rw [hf] at h
          dsimp only at h
          cases hgt : pyGt (archivedOf ce) (archivedOf ex) with
          | error e =>
              rw [hgt] at h
              simp only [Except.bind] at h
              exact Except.noConfusion h
          | ok b =>
              rw [hgt] at h
              simp only [Except.bind] at h
              cases b with
              | false =>
                  simp at h
                  cases h
                  exact hm
              | true =>
                  simp at h
                  cases h
                  refine ⟨?_, ?_⟩
                  · intro p hp
                    rcases mem_mapSet hp with hp | hp
                    · subst hp
                      exact ⟨⟨hd, ht⟩, rfl⟩
                    · exact hm.1 p hp
                  · rw [mapSet_map_fst]
                    exact hm.2
    · rw [if_pos (by simp [ht])] at h
      cases h
      exact hm
  · rw [if_pos (by simp [hd])] at h
    cases h
    exact hm

theorem mergeSource_wf {m : CodeMap} {data : JValue} {m' : CodeMap}
    (hm : WfMap m) (h : mergeSource m data = .ok m') : WfMap m' := by
  unfold mergeSource at h
  cases hs : sourceCodes data with
  | error e =>
      rw [hs] at h
      simp only [bind, Except.bind] at h
      exact Except.noConfusion h
  | ok entries =>
      rw [hs] at h
      simp only [bind, Except.bind] at h
      exact foldlM_ok_inv WfMap (fun s a s' => mergeStep_wf) entries m m' hm h

theorem mergeAll_wf {all_data : List JValue} {m : CodeMap}
    (h : mergeAll all_data = .ok m) : WfMap m := by
  unfold mergeAll at h
  exact foldlM_ok_inv WfMap (fun s a s' => mergeSource_wf) all_data [] m
    ⟨by simp, by simp⟩ h

/-! ### Unfolding helpers for the pipeline -/

theorem merge_codes_ok {all_data : List JValue} {out : List JValue}
    (h : merge_codes all_data = .ok out) :
    ∃ m, mergeAll all_data = .ok m ∧ out = m.map Prod.snd := by
  unfold merge_codes at h
  cases hm : mergeAll all_data with
  | error e =>
      rw [hm] at h
      exact Except.noConfusion h
  | ok m =>
      rw [hm] at h
      simp only [Except.map] at h
      cases h
      exact ⟨m, rfl, rfl⟩

theorem collectData_all_falsy :
    ∀ (results : List (Option JValue)) (acc : List JValue),
      (∀ r ∈ results, ∀ d, r = some d → pyTruthy d = false) →
      results.foldl collectStep acc = acc
  | [], acc, h => rfl
  | r :: rs, acc, h => by
      have hr : collectStep acc r = acc := by
        cases r with
        | none => rfl
        | some d => simp [collectStep, h (some d) (by simp) d rfl]
      rw [List.foldl_cons, hr]
      exact collectData_all_falsy rs acc
        (fun r' hr' => h r' (List.mem_cons_of_mem _ hr'))

/-- C2: for every list of source documents that merges without error, no two
entries of the merged result carry the same `code` value. -/
theorem merged_codes_unique (all_data : List JValue) (out : List JValue)
    (h : merge_codes all_data = .ok out) :
    (out.map codeOf).Nodup := by
  obtain ⟨m, hm, rfl⟩ := merge_codes_ok h
  have hwf := mergeAll_wf hm
  have hmap : (m.map Prod.snd).map codeOf = m.map Prod.fst := by
    rw [List.map_map]
    exact List.map_congr_left (fun p hp => (hwf.1 p hp).2)
  rw [hmap]
  exact hwf.2

theorem merged_codes_unique_witness :
    (([JValue.obj [("code", .str "A"), ("archived", .str "2024-01-01")],
       JValue.obj [("code", .str "B")]]).map codeOf).Nodup :=
  merged_codes_unique
    [.arr [.obj [("code", .str "A"), ("archived", .str "2024-01-01")],
           .obj [("code", .str "B")],
           .obj [("code", .str "A")]]]
    _ (by rfl)

/-- C4: entries that are not dicts, and dict entries whose `code` is missing
or falsy, are silently skipped by the merge (the step returns the unchanged
mapping, without error) and therefore never appear in the merged output:
every merged entry is a dict with a truthy `code`. -/
theorem skipped_entries_never_in_output (all_data : List JValue) (out : List JValue)
    (h : merge_codes all_data = .ok out) :
    (∀ e ∈ out, isDict e = true ∧ pyTruthy (codeOf e) = true)
    ∧ (∀ (m : CodeMap) (ce : JValue),
        isDict ce = false ∨ pyTruthy (codeOf ce) = false → mergeStep m ce = .ok m) := by
  constructor
  · obtain ⟨m, hm, rfl⟩ := merge_codes_ok h
    have hwf := mergeAll_wf hm
    intro e he
    obtain ⟨p, hp, rfl⟩ := List.mem_map.mp he
    exact (hwf.1 p hp).1
  · intro m ce hce
    unfold mergeStep
    rcases hce with hce | hce
    · rw [if_pos (by simp [hce])]
    · by_cases hd : isDict ce = true
      · rw [if_neg (by simp [hd]), if_pos (by simp [hce])]
      · rw [if_pos (by simp [hd])]

theorem skipped_entries_never_in_output_witness :
    (∀ e ∈ [JValue.obj [("code", .str "A")]],
        isDict e = true ∧ pyTruthy (codeOf e) = true)
    ∧ (∀ (m : CodeMap) (ce : JValue),
        isDict ce = false ∨ pyTruthy (codeOf ce) = false → mergeStep m ce = .ok m) :=
  skipped_entries_never_in_output
    [.arr [.obj [("code", .str "A")], .str "junk", .obj [("game", .str "G")],
           .obj [("code", .str "")]]]
    _ (by rfl)

/-- C5: when every fetch fails (every result is `None`), `main` reports the
"No data fetched" error and returns before the output-writing step: no file
is produced. -/
theorem all_fetches_failed_aborts (results : List (Option JValue)) (now : String)
    (h : ∀ r ∈ results, r = none) :
    main_run results now = .fetchError := by
  unfold main_run
  have hc : collectData results = [] :=
    collectData_all_falsy results []
      (fun r hr d hd => by rw [h r hr] at hd; exact Option.noConfusion hd)
  rw [hc]
  rfl

theorem all_fetches_failed_aborts_witness :
    main_run [none, none, none, none] "2024-01-01T00:00:00+00:00" = .fetchError :=
  all_fetches_failed_aborts _ _ (by simp)

/-- C10: a source whose fetch succeeds but yields a falsy document (empty
array, empty object, `null`, `0`, `False` or the empty string) is treated by
`main` exactly like a failed fetch — it is not collected — and when every
source is failed-or-falsy the run reports the total-failure error and writes
nothing, even though no fetch actually failed. -/
theorem falsy_document_like_failed_fetch (now : String) :
    (∀ (rs₁ rs₂ : List (Option JValue)) (d : JValue), pyTruthy d = false →
       main_run (rs₁ ++ some d :: rs₂) now = main_run (rs₁ ++ none :: rs₂) now)
    ∧ (∀ results : List (Option JValue),
       (∀ r ∈ results, ∀ d, r = some d → pyTruthy d = false) →
       main_run results now = .fetchError) := by
  constructor
  · intro rs₁ rs₂ d hd
    have hc : collectData (rs₁ ++ some d :: rs₂) = collectData (rs₁ ++ none :: rs₂) := by
      unfold collectData
      rw [List.foldl_append, List.foldl_append, List.foldl_cons, List.foldl_cons]
      have : collectStep (List.foldl collectStep [] rs₁) (some d)
           = collectStep (List.foldl collectStep [] rs₁) none := by
        simp [collectStep, hd]
      rw [this]
    unfold main_run
    rw [hc]
  · intro results hres
    unfold main_run
    have hc : collectData results = [] := collectData_all_falsy results [] hres
    rw [hc]
    rfl

theorem falsy_document_like_failed_fetch_witness :
    (main_run ([] ++ some (JValue.arr []) :: []) "t" = main_run ([] ++ none :: []) "t")
    ∧ main_run [some (JValue.arr []), some .null, some (JValue.obj []),
                some (JValue.num 0), some (JValue.str "")] "t" = .fetchError :=
  ⟨(falsy_document_like_failed_fetch "t").1 [] [] (JValue.arr []) rfl,
   (falsy_document_like_failed_fetch "t").2 _ (by
      intro r hr d hd
      fin_cases hr <;> cases hd <;> rfl)⟩

/-- C6: every output document `main` writes satisfies
`meta.newcodecount = len(codes)`: the count recorded in the metadata is the
length of the merged, sorted `codes` array, whatever the sources were. -/
theorem newcodecount_eq_codes_length (results : List (Option JValue)) (now : String)
    (doc : OutputDoc) (h : main_run results now = .wrote doc) :
    doc.newcodecount = doc.codes.length := by
  unfold main_run at h
  by_cases he : (collectData results).isEmpty
  · rw [if_pos he] at h
    exact RunResult.noConfusion h
  · rw [if_neg he] at h
    cases hm : merge_codes (collectData results) with
    | error e =>
        rw [hm] at h
        exact RunResult.noConfusion h
    | ok merged =>
        rw [hm] at h
        cases h
        simp [pySortDesc]

theorem newcodecount_eq_codes_length_witness :
    (OutputDoc.mk "t" 1 (pySortDesc [JValue.obj [("code", JValue.str "A")]])).newcodecount
      = (OutputDoc.mk "t" 1 (pySortDesc [JValue.obj [("code", JValue.str "A")]])).codes.length :=
  newcodecount_eq_codes_length [some (.arr [.obj [("code", .str "A")]])] "t" _ (by rfl)

/-- C7 counterexample: a wrapped document whose `codes` key holds `null`
does not contribute an empty entry sequence — iterating `None` raises
`TypeError`, so the merge (and hence the run) fails instead of proceeding. -/
theorem null_codes_value_raises :
    sourceCodes (.arr [.obj [("codes", .null)]]) = .error ()
    ∧ merge_codes [.arr [.obj [("codes", .null)]]] = .error () :=
  ⟨rfl, rfl⟩

/-- C7 (amended): when the first element of a non-empty list document is a
dict containing `codes`, that key's stored value is the entry sequence (the
empty-sequence default cannot fire, since the branch requires the key to be
present; a non-iterable value such as `null` raises `TypeError`); when the
first element is not such a dict, the document itself is the entry sequence;
falsy, non-list or empty documents yield the empty entry sequence. -/
theorem normalization_cases :
    (∀ (d0 : JValue) (ds : List JValue) (v : JValue),
       isDict d0 = true → objLookup d0 "codes" = some v →
       sourceCodes (.arr (d0 :: ds)) =
         (match pySeq v with
          | some entries => .ok entries
          | none => .error ()))
    ∧ (∀ (d0 : JValue) (ds : List JValue),
       ¬(isDict d0 = true ∧ objContains d0 "codes" = true) →
       sourceCodes (.arr (d0 :: ds)) = .ok (d0 :: ds))
    ∧ (∀ data : JValue, isList data = false ∨ pyTruthy data = false →
       sourceCodes data = .ok []) := by
  refine ⟨?_, ?_, ?_⟩
  · intro d0 ds v hd hv
    unfold sourceCodes
    dsimp only
    rw [if_pos (by simp [hd, objContains, hv])]
    rw [show pyGetD d0 "codes" (.arr []) = v by simp [pyGetD, hv]]
  · intro d0 ds hnot
    unfold sourceCodes
    dsimp only
    rw [if_neg (by simpa [Bool.and_eq_true] using hnot)]
    rfl
  · intro data hdata
    cases data with
    | arr xs =>
        cases xs with
        | nil => rfl
        | cons d0 ds =>
            rcases hdata with h | h
            · exact absurd h (by simp [isList])
            · exact absurd h (by simp [pyTruthy])
    | null => rfl
    | bool b => rfl
    | num n => rfl
    | str s => rfl
    | obj fs => rfl

theorem normalization_cases_witness :
    sourceCodes (.arr [.obj [("codes", .arr [.str "x"])]]) = .ok [.str "x"]
    ∧ sourceCodes (.arr [.obj [("code", .str "B")]]) = .ok [.obj [("code", .str "B")]]
    ∧ sourceCodes (.obj [("codes", .arr [.str "x"])]) = .ok [] :=
  ⟨normalization_cases.1 (.obj [("codes", .arr [.str "x"])]) [] (.arr [.str "x"]) rfl rfl,
   normalization_cases.2.1 (.obj [("code", .str "B")]) [] (by simp [isDict, objContains, objLookup]),
   normalization_cases.2.2 (.obj [("codes", .arr [.str "x"])]) (Or.inl rfl)⟩

/-- C8 counterexample: an `archived` value of `null` is not treated as the
empty string — comparing it against the empty-string default of an entry
without `archived` raises `TypeError`, so the merge of two same-code entries
fails instead of resolving the duplicate. -/
theorem null_archived_comparison_raises :
    pyGt .null (.str "") = .error ()
    ∧ merge_codes [.arr [.obj [("code", .str "A")],
                         .obj [("code", .str "A"), ("archived", .null)]]] = .error () :=
  ⟨rfl, rfl⟩

/-- C8 (amended): an entry whose `archived` field is absent reads as the
empty string — for the duplicate comparison and for the sort key alike, both
of which read `archivedOf` — and the empty string sorts lowest; between two
strings Python's `>` is the total lexicographic comparison and never raises;
but a present non-string `archived` value (null, boolean, number, sequence
or mapping) is compared as-is, and comparing it with a string — in either
operand position — raises `TypeError`. -/
theorem archived_comparison_cases :
    (∀ e : JValue, objLookup e "archived" = none → archivedOf e = .str "")
    ∧ (∀ s : String, strLe "" s = true)
    ∧ (∀ s t : String, pyGt (.str s) (.str t) = .ok (strLt t s))
    ∧ (∀ (v : JValue) (s : String), isStr v = false →
        pyGt v (.str s) = .error () ∧ pyGt (.str s) v = .error ()) := by
  refine ⟨?_, ?_, ?_, ?_⟩
  · intro e he
    simp [archivedOf, pyGetD, he]
  · intro s
    cases s with
    | mk data =>
        cases data with
        | nil => rfl
        | cons c cs => rfl
  · intro s t
    rfl
  · intro v s hv
    cases v with
    | null => exact ⟨rfl, rfl⟩
    | bool b => exact ⟨rfl, rfl⟩
    | num n => exact ⟨rfl, rfl⟩
    | str t => simp [isStr] at hv
    | arr xs => exact ⟨rfl, rfl⟩
    | obj fs => exact ⟨rfl, rfl⟩

theorem archived_comparison_cases_witness :
    archivedOf (.obj [("code", .str "A")]) = .str ""
    ∧ strLe "" "2024-01-01" = true
    ∧ pyGt (.str "2024-02-01") (.str "2024-01-01") = .ok (strLt "2024-01-01" "2024-02-01")
    ∧ (pyGt .null (.str "") = .error () ∧ pyGt (.str "") .null = .error ())
    ∧ (pyGt (.num 5) (.str "x") = .error () ∧ pyGt (.str "x") (.num 5) = .error ())
    ∧ (pyGt (.bool true) (.str "x") = .error () ∧ pyGt (.str "x") (.bool true) = .error ()) :=
  ⟨archived_comparison_cases.1 _ rfl,
   archived_comparison_cases.2.1 "2024-01-01",
   archived_comparison_cases.2.2.1 "2024-02-01" "2024-01-01",
   archived_comparison_cases.2.2.2 .null "" rfl,
   archived_comparison_cases.2.2.2 (.num 5) "x" rfl,
   archived_comparison_cases.2.2.2 (.bool true) "x" rfl⟩

/-! ### The string order: transitivity, asymmetry, totality -/

theorem charLt_trans {a b c : Char} (h1 : charLt a b = true) (h2 : charLt b c = true) :
    charLt a c = true := by
  simp only [charLt, decide_eq_true_eq] at h1 h2 ⊢
  omega

theorem charLt_asymm {a b : Char} (h : charLt a b = true) : charLt b a = false := by
  simp only [charLt, decide_eq_true_eq, decide_eq_false_iff_not] at h ⊢
  omega

theorem charLt_conn {a b : Char} (h1 : charLt a b = false) (h2 : charLt b a = false) :
    a = b := by
  simp only [charLt, decide_eq_false_iff_not] at h1 h2
  exact Char.ext (UInt32.ext (show a.toNat = b.toNat by omega))

theorem lexLt_trans : ∀ {l1 l2 l3 : List Char},
    lexLt l1 l2 = true → lexLt l2 l3 = true → lexLt l1 l3 = true
  | [], [], _, h1, _ => by simp [lexLt] at h1
  | [], _ :: _, [], _, h2 => by simp [lexLt] at h2
  | [], _ :: _, _ :: _, _, _ => rfl
  | _ :: _, [], _, h1, _ => by simp [lexLt] at h1
  | _ :: _, _ :: _, [], _, h2 => by simp [lexLt] at h2
  | a :: as, b :: bs, c :: cs, h1, h2 => by
      simp only [lexLt, Bool.or_eq_true, Bool.and_eq_true, beq_iff_eq] at h1 h2 ⊢
      rcases h1 with h1 | ⟨rfl, h1⟩
      · rcases h2 with h2 | ⟨rfl, h2⟩
        · exact Or.inl (charLt_trans h1 h2)
        · exact Or.inl h1
      · rcases h2 with h2 | ⟨rfl, h2⟩
        · exact Or.inl h2
        · exact Or.inr ⟨rfl, lexLt_trans h1 h2⟩

theorem lexLt_asymm : ∀ {l1 l2 : List Char}, lexLt l1 l2 = true → lexLt l2 l1 = false
  | [], [], h => by simp [lexLt] at h
  | [], _ :: _, _ => rfl
  | _ :: _, [], h => by simp [lexLt] at h
  | a :: as, b :: bs, h => by
      simp only [lexLt, Bool.or_eq_true, Bool.and_eq_true, beq_iff_eq] at h
      simp only [lexLt, Bool.or_eq_false_iff, Bool.and_eq_false_iff]
      rcases h with h | ⟨rfl, h⟩
      · refine ⟨charLt_asymm h, Or.inl ?_⟩
        simp only [beq_eq_false_iff_ne, ne_eq]
        intro hba
        subst hba
        simp [charLt] at h
      · exact ⟨by simp [charLt], Or.inr (lexLt_asymm h)⟩

theorem lexLt_conn : ∀ {l1 l2 : List Char},
    lexLt l1 l2 = false → lexLt l2 l1 = false → l1 = l2
  | [], [], _, _ => rfl
  | [], _ :: _, h1, _ => by simp [lexLt] at h1
  | _ :: _, [], _, h2 => by simp [lexLt] at h2
  | a :: as, b :: bs, h1, h2 => by
      simp only [lexLt, Bool.or_eq_false_iff, Bool.and_eq_false_iff] at h1 h2
      have hab : a = b := charLt_conn h1.1 h2.1
      subst hab
      rcases h1.2 with h1' | h1'
      · simp at h1'
      · rcases h2.2 with h2' | h2'
        · simp at h2'
        · rw [lexLt_conn h1' h2']

theorem strLt_trans {a b c : String} (h1 : strLt a b = true) (h2 : strLt b c = true) :
    strLt a c = true := lexLt_trans h1 h2

theorem strLt_asymm {a b : String} (h : strLt a b = true) : strLt b a = false :=
  lexLt_asymm h

theorem strLt_conn {a b : String} (h1 : strLt a b = false) (h2 : strLt b a = false) :
    a = b := by
  cases a with
  | mk da =>
      cases b with
      | mk db =>
          have : da = db := lexLt_conn h1 h2
          rw [this]

theorem strLt_irrefl (a : String) : strLt a a = false := by
  cases h : strLt a a with
  | false => rfl
  | true => exact absurd (strLt_asymm h) (by rw [h]; simp)

theorem strLe_refl (a : String) : strLe a a = true := by
  simp [strLe]

theorem strLe_of_not_lt {a b : String} (h : strLt a b = false) : strLe b a = true := by
  cases hk : strLt b a with
  | true => simp [strLe, hk]
  | false =>
      have : b = a := strLt_conn hk h
      subst this
      exact strLe_refl b

theorem strLe_trans {a b c : String} (h1 : strLe a b = true) (h2 : strLe b c = true) :
    strLe a c = true := by
  simp only [strLe, Bool.or_eq_true, beq_iff_eq] at h1 h2 ⊢
  rcases h1 with h1 | rfl
  · rcases h2 with h2 | rfl
    · exact Or.inl (strLt_trans h1 h2)
    · exact Or.inl h1
  · exact h2

theorem strLt_of_lt_of_le {a b c : String} (h1 : strLt a b = true) (h2 : strLe b c = true) :
    strLt a c = true := by
  simp only [strLe, Bool.or_eq_true, beq_iff_eq] at h2
  rcases h2 with h2 | rfl
  · exact strLt_trans h1 h2
  · exact h1

theorem strLe_iff_not_lt {a b : String} : strLe a b = true ↔ strLt b a = false := by
  constructor
  · intro h
    simp only [strLe, Bool.or_eq_true, beq_iff_eq] at h
    rcases h with h | rfl
    · exact strLt_asymm h
    · exact strLt_irrefl a
  · exact strLe_of_not_lt

theorem keyLe_refl (x : String × String) : keyLe x x = true := by
  simp [keyLe, strLe_refl]

theorem keyLe_trans {x y z : String × String} (h1 : keyLe x y = true) (h2 : keyLe y z = true) :
    keyLe x z = true := by
  simp only [keyLe, Bool.or_eq_true, Bool.and_eq_true, beq_iff_eq] at h1 h2 ⊢
  rcases h1 with h1 | ⟨e1, h1⟩
  · rcases h2 with h2 | ⟨e2, h2⟩
    · exact Or.inl (strLt_trans h1 h2)
    · exact Or.inl (e2 ▸ h1)
  · rcases h2 with h2 | ⟨e2, h2⟩
    · exact Or.inl (e1 ▸ h2)
    · exact Or.inr ⟨e1.trans e2, strLe_trans h1 h2⟩

theorem keyLe_total (x y : String × String) : keyLe x y = true ∨ keyLe y x = true := by
  simp only [keyLe, Bool.or_eq_true, Bool.and_eq_true, beq_iff_eq]
  cases h1 : strLt x.1 y.1 with
  | true => exact Or.inl (Or.inl rfl)
  | false =>
      cases h2 : strLt y.1 x.1 with
      | true => exact Or.inr (Or.inl rfl)
      | false =>
          have e : x.1 = y.1 := strLt_conn h1 h2
          cases h3 : strLt x.2 y.2 with
          | true => exact Or.inl (Or.inr ⟨e, by simp [strLe, h3]⟩)
          | false => exact Or.inr (Or.inr ⟨e.symm, strLe_of_not_lt h3⟩)

theorem sortDescLe_trans (a b c : JValue)
    (h1 : sortDescLe a b = true) (h2 : sortDescLe b c = true) : sortDescLe a c = true :=
  keyLe_trans h2 h1

theorem sortDescLe_total (a b : JValue) : (sortDescLe a b || sortDescLe b a) = true := by
  rcases keyLe_total (sortKey b) (sortKey a) with h | h <;>
    simp [sortDescLe, h]

/-- C3: the sort step is a stable sort of the merged entries by the composite
string key `(game, archived)` (each read with empty-string default),
descending on the whole tuple: adjacent output entries satisfy
`key a ≥ key b` in the lexicographic order, the output is a permutation of
the input, and entries with identical keys keep their relative pre-sort
order (the subsequence of any fixed key is unchanged). -/
theorem sort_descending_stable (l : List JValue)
    (_hstr : ∀ e ∈ l, isStr (gameOf e) = true ∧ isStr (archivedOf e) = true) :
    List.Pairwise (fun a b => keyLe (sortKey b) (sortKey a) = true) (pySortDesc l)
    ∧ List.Perm (pySortDesc l) l
    ∧ (∀ k : String × String,
        (pySortDesc l).filter (fun e => decide (sortKey e = k))
          = l.filter (fun e => decide (sortKey e = k))) := by
  unfold pySortDesc
  refine ⟨?_, List.mergeSort_perm l _, ?_⟩
  · exact List.sorted_mergeSort sortDescLe_trans sortDescLe_total l
  · intro k
    have hpw : (l.filter (fun e => decide (sortKey e = k))).Pairwise
        (fun a b => sortDescLe a b = true) := by
      apply List.pairwise_of_forall_mem_list
      intro a ha b hb
      have hka : sortKey a = k := by simpa using (List.mem_filter.mp ha).2
      have hkb : sortKey b = k := by simpa using (List.mem_filter.mp hb).2
      unfold sortDescLe
      rw [hka, hkb]
      exact keyLe_refl k
    have hsub : List.Sublist (l.filter (fun e => decide (sortKey e = k)))
        (List.mergeSort l sortDescLe) :=
      List.sublist_mergeSort sortDescLe_trans sortDescLe_total hpw (List.filter_sublist l)
    have hperm : List.Perm
        ((List.mergeSort l sortDescLe).filter (fun e => decide (sortKey e = k)))
        (l.filter (fun e => decide (sortKey e = k))) :=
      (List.mergeSort_perm l sortDescLe).filter _
    have hsub2 : List.Sublist (l.filter (fun e => decide (sortKey e = k)))
        ((List.mergeSort l sortDescLe).filter (fun e => decide (sortKey e = k))) := by
      have h2 := hsub.filter (fun e => decide (sortKey e = k))
      rwa [List.filter_filter,
           show (fun (a : JValue) => decide (sortKey a = k) && decide (sortKey a = k))
              = (fun a => decide (sortKey a = k)) from funext (fun a => Bool.and_self _)] at h2
    exact (List.Sublist.eq_of_length hsub2 hperm.length_eq.symm).symm

theorem sort_descending_stable_witness :
    List.Pairwise (fun a b => keyLe (sortKey b) (sortKey a) = true)
      (pySortDesc [JValue.obj [("game", .str "G1"), ("archived", .str "2024-01-01")],
                   JValue.obj [("game", .str "G2"), ("archived", .str "2024-02-01")]])
    ∧ List.Perm
        (pySortDesc [JValue.obj [("game", .str "G1"), ("archived", .str "2024-01-01")],
                     JValue.obj [("game", .str "G2"), ("archived", .str "2024-02-01")]])
        [JValue.obj [("game", .str "G1"), ("archived", .str "2024-01-01")],
         JValue.obj [("game", .str "G2"), ("archived", .str "2024-02-01")]]
    ∧ (∀ k : String × String,
        (pySortDesc [JValue.obj [("game", .str "G1"), ("archived", .str "2024-01-01")],
                     JValue.obj [("game", .str "G2"), ("archived", .str "2024-02-01")]]).filter
            (fun e => decide (sortKey e = k))
          = [JValue.obj [("game", .str "G1"), ("archived", .str "2024-01-01")],
             JValue.obj [("game", .str "G2"), ("archived", .str "2024-02-01")]].filter
            (fun e => decide (sortKey e = k))) :=
  sort_descending_stable
    [JValue.obj [("game", .str "G1"), ("archived", .str "2024-01-01")],
     JValue.obj [("game", .str "G2"), ("archived", .str "2024-02-01")]]
    (by decide)

/-! ### Merging a list of fresh, well-formed entries is the identity -/

theorem foldlM_mergeStep_fresh :
    ∀ (l : List JValue) (m : CodeMap),
      (∀ e ∈ l, EntryOk e) →
      (m.map Prod.fst ++ l.map codeOf).Nodup →
      l.foldlM mergeStep m = .ok (m ++ l.map (fun e => (codeOf e, e)))
  | [], m, _, _ => by
      simp only [List.foldlM_nil, List.map_nil, List.append_nil]
      rfl
  | e :: l, m, hok, hnd => by
      have he : EntryOk e := hok e (by simp)
      have hfind : mapFind m (codeOf e) = none := by
        apply mapFind_eq_none_keys.mpr
        intro hmem
        rcases List.nodup_append.mp hnd with ⟨-, -, hdisj⟩
        exact hdisj hmem (by simp)
      have hstep : mergeStep m e = .ok (m ++ [(codeOf e, e)]) := by
        unfold mergeStep
        rw [if_neg (by simp [he.1]), if_neg (by simp [he.2]), hfind]
      rw [List.foldlM_cons, hstep]
      simp only [bind, Except.bind]
      rw [foldlM_mergeStep_fresh l (m ++ [(codeOf e, e)])
            (fun x hx => hok x (by simp [hx]))
            (by simpa [List.append_assoc] using hnd)]
      simp

theorem main_run_wrote {results : List (Option JValue)} {now : String} {doc : OutputDoc}
    (h : main_run results now = .wrote doc) :
    ∃ merged, merge_codes (collectData results) = .ok merged
      ∧ doc = ⟨now, merged.length, pySortDesc merged⟩ := by
  unfold main_run at h
  by_cases he : (collectData results).isEmpty
  · rw [if_pos he] at h
    exact RunResult.noConfusion h
  · rw [if_neg he] at h
    cases hm : merge_codes (collectData results) with
    | error e =>
        rw [hm] at h
        exact RunResult.noConfusion h
    | ok merged =>
        rw [hm] at h
        cases h
        exact ⟨merged, rfl, rfl⟩

/-- C9: one extra pass through the pipeline is the identity — for every run
that writes an output document, merging that document back in as the single
source succeeds and returns exactly the document's `codes` array. -/
theorem roundtrip_merge_identity (results : List (Option JValue)) (now : String)
    (doc : OutputDoc) (h : main_run results now = .wrote doc) :
    merge_codes [outputJson doc] = .ok doc.codes := by
  obtain ⟨merged, hm, rfl⟩ := main_run_wrote h
  obtain ⟨mm, hmm, hout⟩ := merge_codes_ok hm
  have hwf := mergeAll_wf hmm
  have hok : ∀ e ∈ merged, EntryOk e := by
    intro e he
    rw [hout] at he
    obtain ⟨p, hp, rfl⟩ := List.mem_map.mp he
    exact (hwf.1 p hp).1
  have hnodup : (merged.map codeOf).Nodup := by
    rw [hout, List.map_map]
    have hcomp : List.map (codeOf ∘ Prod.snd) mm = List.map Prod.fst mm :=
      List.map_congr_left (fun p hp => (hwf.1 p hp).2)
    rw [hcomp]
    exact hwf.2
  have hperm : List.Perm (pySortDesc merged) merged := List.mergeSort_perm merged _
  have hok' : ∀ e ∈ pySortDesc merged, EntryOk e := fun e he => hok e (hperm.mem_iff.mp he)
  have hnodup' : ((pySortDesc merged).map codeOf).Nodup :=
    (hperm.map codeOf).nodup_iff.mpr hnodup
  have hsrc : sourceCodes (outputJson ⟨now, merged.length, pySortDesc merged⟩)
      = .ok (pySortDesc merged) := rfl
  unfold merge_codes mergeAll
  rw [List.foldlM_cons]
  have hms : mergeSource [] (outputJson ⟨now, merged.length, pySortDesc merged⟩)
      = .ok ((pySortDesc merged).map (fun e => (codeOf e, e))) := by
    unfold mergeSource
    rw [hsrc]
    simp only [bind, Except.bind]
    rw [foldlM_mergeStep_fresh (pySortDesc merged) [] hok' (by simpa using hnodup')]
    simp
  rw [hms]
  simp only [bind, Except.bind, List.foldlM_nil]
  show Except.ok (((pySortDesc merged).map (fun e => (codeOf e, e))).map Prod.snd)
      = Except.ok (pySortDesc merged)
  rw [List.map_map]
  rw [show (Prod.snd ∘ fun e : JValue => (codeOf e, e)) = id from funext (fun e => rfl)]
  rw [List.map_id]

theorem roundtrip_merge_identity_witness :
    merge_codes [outputJson ⟨"t", 1, pySortDesc [JValue.obj [("code", JValue.str "A")]]⟩]
      = .ok (pySortDesc [JValue.obj [("code", JValue.str "A")]]) :=
  roundtrip_merge_identity [some (.arr [.obj [("code", .str "A")]])] "t" _ (by rfl)

/-! ### Lemmas for the first-maximum characterization of the merge -/

theorem strLt_of_le_of_lt {a b c : String} (h1 : strLe a b = true) (h2 : strLt b c = true) :
    strLt a c = true := by
  simp only [strLe, Bool.or_eq_true, beq_iff_eq] at h1
  rcases h1 with h1 | rfl
  · exact strLt_trans h1 h2
  · exact h2

theorem strLe_of_lt {a b : String} (h : strLt a b = true) : strLe a b = true := by
  simp [strLe, h]

theorem pyGt_str {a b : JValue} (ha : isStr a = true) (hb : isStr b = true) :
    pyGt a b = .ok (strLt (strVal b) (strVal a)) := by
  cases a with
  | str s =>
      cases b with
      | str t => rfl
      | null => simp [isStr] at hb
      | bool x => simp [isStr] at hb
      | num x => simp [isStr] at hb
      | arr x => simp [isStr] at hb
      | obj x => simp [isStr] at hb
  | null => simp [isStr] at ha
  | bool x => simp [isStr] at ha
  | num x => simp [isStr] at ha
  | arr x => simp [isStr] at ha
  | obj x => simp [isStr] at ha

theorem mem_mapSet_nodup : ∀ {m : CodeMap} {c e : JValue} {p : JValue × JValue},
    (m.map Prod.fst).Nodup → p ∈ mapSet m c e → p = (c, e) ∨ (p ∈ m ∧ p.1 ≠ c)
  | [], c, e, p, _, h => by simp [mapSet] at h
  | (k, v) :: m, c, e, p, hnd, h => by
      by_cases hk : k = c
      · subst hk
        rw [show mapSet ((k, v) :: m) k e = (k, e) :: m from by simp [mapSet]] at h
        rcases List.mem_cons.mp h with h | h
        · exact Or.inl h
        · refine Or.inr ⟨List.mem_cons_of_mem _ h, ?_⟩
          intro hpk
          have hpm : p.1 ∈ m.map Prod.fst := List.mem_map.mpr ⟨p, h, rfl⟩
          rw [hpk] at hpm
          exact (List.nodup_cons.mp (by simpa using hnd)).1 hpm
      · rw [show mapSet ((k, v) :: m) c e = (k, v) :: mapSet m c e from by simp [mapSet, hk]] at h
        rcases List.mem_cons.mp h with h | h
        · exact Or.inr ⟨by simp [h], by simp [h, hk]⟩
        · rcases mem_mapSet_nodup (List.nodup_cons.mp (by simpa using hnd)).2 h with h' | ⟨h1, h2⟩
          · exact Or.inl h'
          · exact Or.inr ⟨List.mem_cons_of_mem _ h1, h2⟩

theorem mapFind_of_mem_nodup : ∀ {m : CodeMap} {p : JValue × JValue},
    (m.map Prod.fst).Nodup → p ∈ m → mapFind m p.1 = some p.2
  | [], p, _, hp => by simp at hp
  | (k, v) :: m, p, hnd, hp => by
      rcases List.mem_cons.mp hp with hp | hp
      · subst hp
        simp [mapFind]
      · have hk : k ≠ p.1 := by
          intro he
          have : p.1 ∈ m.map Prod.fst := List.mem_map.mpr ⟨p, hp, rfl⟩
          rw [← he] at this
          exact (List.nodup_cons.mp (by simpa using hnd)).1 this
        rw [show mapFind ((k, v) :: m) p.1 = if k = p.1 then some v else mapFind m p.1 from rfl,
            if_neg hk]
        exact mapFind_of_mem_nodup (List.nodup_cons.mp (by simpa using hnd)).2 hp

theorem mapFind_append_none {m₁ m₂ : CodeMap} {c : JValue} :
    mapFind (m₁ ++ m₂) c = none ↔ mapFind m₁ c = none ∧ mapFind m₂ c = none := by
  rw [mapFind_eq_none, mapFind_eq_none, mapFind_eq_none]
  constructor
  · intro h
    exact ⟨fun p hp => h p (List.mem_append.mpr (Or.inl hp)),
           fun p hp => h p (List.mem_append.mpr (Or.inr hp))⟩
  · intro h p hp
    rcases List.mem_append.mp hp with hp | hp
    · exact h.1 p hp
    · exact h.2 p hp

theorem candidates_append_keep {x : JValue} (flat : List JValue) (c : JValue)
    (hx : keeps x = true) :
    candidates (flat ++ [x]) c
      = candidates flat c ++ (if codeOf x = c then [x] else []) := by
  unfold candidates
  rw [List.filter_append]
  congr 1
  by_cases h : codeOf x = c <;> simp [hx, h]

theorem candidates_append_skip {x : JValue} (flat : List JValue) (c : JValue)
    (hx : keeps x = false) :
    candidates (flat ++ [x]) c = candidates flat c := by
  unfold candidates
  rw [List.filter_append]
  simp [hx]

theorem isFirstMax_singleton (e : JValue) : IsFirstMax [e] e :=
  ⟨[], [], rfl, by simp, by simp⟩

theorem isFirstMax_mem {l : List JValue} {e : JValue} (h : IsFirstMax l e) : e ∈ l := by
  obtain ⟨pre, post, rfl, -, -⟩ := h
  simp

theorem isFirstMax_max {l : List JValue} {e : JValue} (h : IsFirstMax l e) :
    ∀ x ∈ l, strLe (archStr x) (archStr e) = true := by
  obtain ⟨pre, post, rfl, hpre, hpost⟩ := h
  intro x hx
  rcases List.mem_append.mp hx with hx | hx
  · exact strLe_of_lt (hpre x hx)
  · rcases List.mem_cons.mp hx with rfl | hx
    · exact strLe_refl _
    · exact hpost x hx

theorem isFirstMax_append_le {l : List JValue} {e x : JValue} (h : IsFirstMax l e)
    (hle : strLe (archStr x) (archStr e) = true) : IsFirstMax (l ++ [x]) e := by
  obtain ⟨pre, post, rfl, hpre, hpost⟩ := h
  refine ⟨pre, post ++ [x], by simp, hpre, ?_⟩
  intro y hy
  rcases List.mem_append.mp hy with hy | hy
  · exact hpost y hy
  · rw [List.mem_singleton.mp hy]
    exact hle

theorem isFirstMax_append_gt {l : List JValue} {e x : JValue} (h : IsFirstMax l e)
    (hgt : strLt (archStr e) (archStr x) = true) : IsFirstMax (l ++ [x]) x := by
  obtain ⟨pre, post, rfl, hpre, hpost⟩ := h
  refine ⟨pre ++ e :: post, [], by simp, ?_, by simp⟩
  intro y hy
  rcases List.mem_append.mp hy with hy | hy
  · exact strLt_trans (hpre y hy) hgt
  · rcases List.mem_cons.mp hy with rfl | hy
    · exact hgt
    · exact strLt_of_le_of_lt (hpost y hy) hgt

theorem mergeInv_skip {flat : List JValue} {m : CodeMap} {x : JValue}
    (hinv : MergeInv flat m) (hk : keeps x = false) : MergeInv (flat ++ [x]) m := by
  obtain ⟨hnd, hent, hnone⟩ := hinv
  refine ⟨hnd, ?_, ?_⟩
  · intro p hp
    rw [candidates_append_skip _ _ hk]
    exact hent p hp
  · intro c hc
    rw [candidates_append_skip _ _ hk]
    exact hnone c hc

theorem mergeStep_inv {flat : List JValue} {m : CodeMap} {x : JValue} {m' : CodeMap}
    (hstr : ∀ e ∈ flat ++ [x], isStr (archivedOf e) = true)
    (hinv : MergeInv flat m)
    (h : mergeStep m x = .ok m') : MergeInv (flat ++ [x]) m' := by
  obtain ⟨hnd, hent, hnone⟩ := hinv
  unfold mergeStep at h
  by_cases hd : isDict x = true
  case neg =>
    rw [if_pos (by simp [hd])] at h
    cases h
    exact mergeInv_skip ⟨hnd, hent, hnone⟩ (by simp [keeps, hd])
  case pos =>
  rw [if_neg (by simp [hd])] at h
  by_cases ht : pyTruthy (codeOf x) = true
  case neg =>
    rw [if_pos (by simp [ht])] at h
    cases h
    exact mergeInv_skip ⟨hnd, hent, hnone⟩ (by simp [keeps, ht])
  case pos =>
  rw [if_neg (by simp [ht])] at h
  have hk : keeps x = true := by simp [keeps, hd, ht]
  cases hf : mapFind m (codeOf x) with
  | none =>
      rw [hf] at h
      cases h
      have hcand : candidates flat (codeOf x) = [] := hnone _ hf
      refine ⟨?_, ?_, ?_⟩
      · rw [List.map_append, List.nodup_append]
        refine ⟨hnd, by simp, ?_⟩
        intro a ha hb
        simp at hb
        subst hb
        exact mapFind_eq_none_keys.mp hf ha
      · intro p hp
        rcases List.mem_append.mp hp with hp | hp
        · obtain ⟨hc1, hc2⟩ := hent p hp
          have hne2 : codeOf x ≠ p.1 := fun hEq => (mapFind_eq_none.mp hf p hp) hEq.symm
          refine ⟨hc1, ?_⟩
          rw [candidates_append_keep _ _ hk, if_neg hne2, List.append_nil]
          exact hc2
        · simp at hp
          subst hp
          refine ⟨rfl, ?_⟩
          rw [candidates_append_keep _ _ hk, if_pos rfl, hcand, List.nil_append]
          exact isFirstMax_singleton x
      · intro c hc
        rcases mapFind_append_none.mp hc with ⟨hc1, hc2⟩
        have hne : codeOf x ≠ c := by
          intro hEq
          have := mapFind_eq_none.mp hc2 (codeOf x, x) (by simp)
          exact this hEq
        rw [candidates_append_keep _ _ hk, if_neg hne, List.append_nil]
        exact hnone c hc1
  | some ex =>
      rw [hf] at h
      dsimp only at h
      have hex_mem : (codeOf x, ex) ∈ m := mapFind_mem hf
      obtain ⟨-, hex_first⟩ := hent _ hex_mem
      have hx_str : isStr (archivedOf x) = true := hstr x (by simp)
      have hex_flat : ex ∈ flat := List.mem_of_mem_filter (isFirstMax_mem hex_first)
      have hex_str : isStr (archivedOf ex) = true :=
        hstr ex (List.mem_append.mpr (Or.inl hex_flat))
      rw [pyGt_str hx_str hex_str] at h
      simp only [Except.bind] at h
      by_cases hcmp : strLt (strVal (archivedOf ex)) (strVal (archivedOf x)) = true
      · rw [if_pos hcmp] at h
        cases h
        refine ⟨by rw [mapSet_map_fst]; exact hnd, ?_, ?_⟩
        · intro p hp
          rcases mem_mapSet_nodup hnd hp with rfl | ⟨hp, hpne⟩
          · refine ⟨rfl, ?_⟩
            rw [candidates_append_keep _ _ hk, if_pos rfl]
            exact isFirstMax_append_gt hex_first hcmp
          · obtain ⟨hc1, hc2⟩ := hent p hp
            refine ⟨hc1, ?_⟩
            rw [candidates_append_keep _ _ hk, if_neg (fun hEq => hpne hEq.symm),
                List.append_nil]
            exact hc2
        · intro c hc
          rw [mapFind_mapSet_none] at hc
          have hne : codeOf x ≠ c := by
            intro hEq
            rw [hEq, hc] at hf
            exact Option.noConfusion hf
          rw [candidates_append_keep _ _ hk, if_neg hne, List.append_nil]
          exact hnone c hc
      · rw [if_neg hcmp] at h
        cases h
        have hle : strLe (strVal (archivedOf x)) (strVal (archivedOf ex)) = true :=
          strLe_of_not_lt (Bool.eq_false_iff.mpr hcmp)
        refine ⟨hnd, ?_, ?_⟩
        · intro p hp
          obtain ⟨hc1, hc2⟩ := hent p hp
          by_cases hpc : p.1 = codeOf x
          · have hfp : mapFind m p.1 = some p.2 := mapFind_of_mem_nodup hnd hp
            rw [hpc, hf] at hfp
            have hpe : p.2 = ex := (Option.some.inj hfp).symm
            refine ⟨hc1, ?_⟩
            rw [hpe, hpc, candidates_append_keep _ _ hk, if_pos rfl]
            exact isFirstMax_append_le hex_first hle
          · refine ⟨hc1, ?_⟩
            rw [candidates_append_keep _ _ hk, if_neg (fun hEq => hpc hEq.symm),
                List.append_nil]
            exact hc2
        · intro c hc
          have hne : codeOf x ≠ c := by
            intro hEq
            rw [hEq, hc] at hf
            exact Option.noConfusion hf
          rw [candidates_append_keep _ _ hk, if_neg hne, List.append_nil]
          exact hnone c hc

theorem foldlM_mergeStep_inv :
    ∀ (rest done : List JValue) (m m' : CodeMap),
      (∀ e ∈ done ++ rest, isStr (archivedOf e) = true) →
      MergeInv done m →
      rest.foldlM mergeStep m = .ok m' →
      MergeInv (done ++ rest) m'
  | [], done, m, m', _, hinv, h => by
      simp only [List.foldlM_nil] at h
      cases h
      simpa using hinv
  | x :: rest, done, m, m', hstr, hinv, h => by
      rw [List.foldlM_cons] at h
      cases hx : mergeStep m x with
      | error e =>
          rw [hx] at h
          simp only [bind, Except.bind] at h
          exact Except.noConfusion h
      | ok m1 =>
          rw [hx] at h
          simp only [bind, Except.bind] at h
          have hinv1 : MergeInv (done ++ [x]) m1 :=
            mergeStep_inv
              (fun e he => hstr e (by
                rcases List.mem_append.mp he with he | he
                · exact List.mem_append.mpr (Or.inl he)
                · simp at he
                  subst he
                  exact List.mem_append.mpr (Or.inr (by simp))))
              hinv hx
          have hrec := foldlM_mergeStep_inv rest (done ++ [x]) m1 m'
            (fun e he => hstr e (by
              rcases List.mem_append.mp he with he | he
              · rcases List.mem_append.mp he with he | he
                · exact List.mem_append.mpr (Or.inl he)
                · simp at he
                  subst he
                  exact List.mem_append.mpr (Or.inr (by simp))
              · exact List.mem_append.mpr (Or.inr (List.mem_cons_of_mem _ he))))
            hinv1 h
          simpa [List.append_assoc] using hrec

theorem mergeAll_eq_flat :
    ∀ (ds : List JValue) (parts : List (List JValue)) (m : CodeMap),
      ds.mapM sourceCodes = .ok parts →
      ds.foldlM mergeSource m = parts.flatten.foldlM mergeStep m
  | [], parts, m, h => by
      simp only [List.mapM_nil] at h
      cases h
      simp
  | d :: ds, parts, m, h => by
      rw [List.mapM_cons] at h
      cases hd : sourceCodes d with
      | error e =>
          rw [hd] at h
          simp only [bind, Except.bind] at h
          exact Except.noConfusion h
      | ok p =>
          rw [hd] at h
          simp only [bind, Except.bind] at h
          cases hds : ds.mapM sourceCodes with
          | error e =>
              rw [hds] at h
              simp only [bind, Except.bind] at h
              exact Except.noConfusion h
          | ok ps =>
              rw [hds] at h
              simp only [bind, Except.bind] at h
              cases h
              rw [List.foldlM_cons, List.flatten_cons, List.foldlM_append]
              have hms : mergeSource m d = p.foldlM mergeStep m := by
                unfold mergeSource
                rw [hd]
                rfl
              cases hp : p.foldlM mergeStep m with
              | error e =>
                  rw [hms, hp]
                  simp [bind, Except.bind]
              | ok m1 =>
                  rw [hms, hp]
                  simp only [bind, Except.bind]
                  exact mergeAll_eq_flat ds ps m1 hds

theorem processedEntries_ok {all_data : List JValue} {flat : List JValue}
    (h : processedEntries all_data = .ok flat) :
    ∃ parts, all_data.mapM sourceCodes = .ok parts ∧ flat = parts.flatten := by
  unfold processedEntries at h
  cases hp : all_data.mapM sourceCodes with
  | error e =>
      rw [hp] at h
      exact Except.noConfusion h
  | ok parts =>
      rw [hp] at h
      simp only [Except.map] at h
      cases h
      exact ⟨parts, rfl, rfl⟩

/-- C1: every entry of the merged output is, among the candidate entries
carrying the same code (taken in processing order: sources in list order,
entries in intra-source order), the first one attaining the maximum
`archived` value under string-lexical comparison — every earlier candidate
compares strictly smaller, every later one no greater, so ties keep the
first-processed entry (replacement happens only on strictly greater). -/
theorem merge_keeps_first_max (all_data flat out : List JValue)
    (hflat : processedEntries all_data = .ok flat)
    (hstr : ∀ e ∈ flat, isStr (archivedOf e) = true)
    (hout : merge_codes all_data = .ok out) :
    ∀ e ∈ out, IsFirstMax (candidates flat (codeOf e)) e
      ∧ ∀ x ∈ candidates flat (codeOf e), strLe (archStr x) (archStr e) = true := by
  obtain ⟨m, hm, rfl⟩ := merge_codes_ok hout
  obtain ⟨parts, hparts, rfl⟩ := processedEntries_ok hflat
  unfold mergeAll at hm
  rw [mergeAll_eq_flat all_data parts [] hparts] at hm
  have h0 : MergeInv [] [] := ⟨by simp, by simp, fun c _ => rfl⟩
  have hinv : MergeInv parts.flatten m := by
    have hres := foldlM_mergeStep_inv parts.flatten [] [] m (by simpa using hstr) h0 hm
    simpa using hres
  intro e he
  obtain ⟨p, hp, rfl⟩ := List.mem_map.mp he
  obtain ⟨hc1, hc2⟩ := hinv.2.1 p hp
  rw [hc1]
  exact ⟨hc2, isFirstMax_max hc2⟩

theorem merge_keeps_first_max_witness :
    IsFirstMax
      (candidates
        [JValue.obj [("code", .str "A"), ("archived", .str "2024-01-01")],
         JValue.obj [("code", .str "A"), ("archived", .str "2024-02-01")],
         JValue.obj [("code", .str "A"), ("archived", .str "2024-02-01"), ("src", .str "late")]]
        (codeOf (JValue.obj [("code", .str "A"), ("archived", .str "2024-02-01")])))
      (JValue.obj [("code", .str "A"), ("archived", .str "2024-02-01")])
    ∧ ∀ x ∈ candidates
        [JValue.obj [("code", .str "A"), ("archived", .str "2024-01-01")],
         JValue.obj [("code", .str "A"), ("archived", .str "2024-02-01")],
         JValue.obj [("code", .str "A"), ("archived", .str "2024-02-01"), ("src", .str "late")]]
        (codeOf (JValue.obj [("code", .str "A"), ("archived", .str "2024-02-01")])),
        strLe (archStr x)
          (archStr (JValue.obj [("code", .str "A"), ("archived", .str "2024-02-01")])) = true :=
  merge_keeps_first_max
    [.arr [.obj [("codes",
        .arr [.obj [("code", .str "A"), ("archived", .str "2024-01-01")],
              .obj [("code", .str "A"), ("archived", .str "2024-02-01")]])]],
     .arr [.obj [("code", .str "A"), ("archived", .str "2024-02-01"), ("src", .str "late")]]]
    [JValue.obj [("code", .str "A"), ("archived", .str "2024-01-01")],
     JValue.obj [("code", .str "A"), ("archived", .str "2024-02-01")],
     JValue.obj [("code", .str "A"), ("archived", .str "2024-02-01"), ("src", .str "late")]]
    [JValue.obj [("code", .str "A"), ("archived", .str "2024-02-01")]]
    (by rfl) (by decide) (by rfl)
    (JValue.obj [("code", .str "A"), ("archived", .str "2024-02-01")]) (by decide)
